import Mathlib

open Matrix

/-!
Verification of the IRNet network-design engine (files `IRNet_SST.py` and
`Dopt_placement.py`).

The development shallowly embeds, over exact rationals:

* the outer loop of `networkPlanning_iterative` (IRNet_SST.py lines 214-241):
  the freeze step (l. 224-225), the convergence / forced-freeze step
  (l. 227-229), the reweight and re-clamp step (l. 230-235), and the
  `while` loop with its guard (l. 220).  The convex solver
  (`sensor_placement.solve()`, in the external `sensor_placement` module)
  is modelled as an arbitrary sequence of outputs `h : [0,1]^n`, one per
  outer pass, exactly the quantification used by the specification.
  A Python `IndexError` (reachable in the forced-freeze expression when
  every index is already monitored) is modelled as `Option.none`.
  `np.linalg.norm(x) <= eps` is embedded as `sumSq x <= eps^2`, which is
  equivalent for `0 <= eps` since both sides are nonnegative and squaring
  is monotone; rationals have no square root.
  `np.argsort(h)[::-1]` reversal of a stable ascending argsort orders ties
  by decreasing index, so the forced pick is embedded as the maximum of
  `(h i, i)` in lexicographic order over the candidate indices.

* the variance model: the row-selection matrix `np.identity(n)[locs]`
  (IRNet_SST.py l. 141, Dopt_placement.py l. 101, and inline at l. 759,
  799, 836-838), the Gram matrix `Psi.T@C.T@C@Psi`, `np.linalg.inv`
  (raises `LinAlgError` on a singular argument, modelled as `none`,
  computed by the adjugate formula otherwise), the per-location variance
  vector `np.diag(Psi@inv@Psi.T)` and its `.max()`.

* `recover_map` (IRNet_SST.py lines 42-67), with `np.nan` cells modelled
  as `Option.none` and the column-major (`order='F'`) reshape.
-/

/-! ## State of the iterative loop (networkPlanning_iterative) -/

/-- State of one `networkPlanning_iterative` run between outer passes:
`S` is `locations_monitored`, `Sc` is `locations_unmonitored`
(`sensor_placement.locations_monitored` aliases the same list object),
`hvec` is `sensor_placement.h.value` after the end-of-pass re-clamp,
`hprev` is `h_prev` (the raw solver output of the previous pass),
`w` is `sensor_placement.w.value`, and `it` is the inner counter. -/
structure IRState where
  S : List ℕ
  Sc : List ℕ
  hvec : ℕ → ℚ
  hprev : ℕ → ℚ
  w : ℕ → ℚ
  it : ℕ

/-- Freeze step for the monitored set, IRNet_SST.py line 224:
`locations_monitored += [i for i in np.argwhere(h >= 1-epsilon) if i not in locations_monitored]`.
`np.argwhere` enumerates indices in increasing order. -/
def freezeMon (n : ℕ) (eps : ℚ) (h : ℕ → ℚ) (S : List ℕ) : List ℕ :=
  S ++ (List.range n).filter (fun i => decide (1 - eps ≤ h i ∧ i ∉ S))

/-- Freeze step for the unmonitored set, IRNet_SST.py line 225:
`locations_unmonitored += [i for i in np.argwhere(h <= epsilon) if i not in locations_unmonitored]`. -/
def freezeUnmon (n : ℕ) (eps : ℚ) (h : ℕ → ℚ) (Sc : List ℕ) : List ℕ :=
  Sc ++ (List.range n).filter (fun i => decide (h i ≤ eps ∧ i ∉ Sc))

/-- One step of the maximum search: keep the candidate with the larger `h`,
a later index winning ties (the reversal of a stable ascending argsort
puts equal values in decreasing index order). -/
def pickStep (h : ℕ → ℚ) (acc : Option ℕ) (i : ℕ) : Option ℕ :=
  match acc with
  | none => some i
  | some j => if h j ≤ h i then some i else some j

/-- Forced-freeze selection, IRNet_SST.py line 228:
`[i for i in np.argsort(h)[::-1] if i not in locations_monitored][0]`,
the highest-`h` index among indices not in `S` (membership in `Sc` is not
checked).  `none` models the `IndexError` raised when the comprehension is
empty, i.e. when every index `< n` is already in `S`. -/
def forcedPick (n : ℕ) (h : ℕ → ℚ) (S : List ℕ) : Option ℕ :=
  ((List.range n).filter (fun i => decide (i ∉ S))).foldl (pickStep h) none

/-- Squared Euclidean distance of two vectors on indices `< n`;
`np.linalg.norm(h - h_prev) <= epsilon` is `distSq n h hprev <= epsilon^2`. -/
def distSq (n : ℕ) (a b : ℕ → ℚ) : ℚ :=
  ((List.range n).map (fun i => (a i - b i) ^ 2)).sum

/-- End-of-pass re-clamp, IRNet_SST.py lines 233-234:
`h.value[locations_monitored] = 1` then `h.value[locations_unmonitored] = 0`
(the second assignment overwrites the first on a shared index). -/
def clampVec (h : ℕ → ℚ) (S Sc : List ℕ) : ℕ → ℚ :=
  fun i => if i ∈ Sc then 0 else if i ∈ S then 1 else h i

/-- One outer pass of `networkPlanning_iterative` (IRNet_SST.py lines
221-235) applied to the solver output `h` of that pass: freeze (l. 224-225),
convergence / forced-freeze check (l. 227-229), record `h_prev` (l. 230),
reweight `w = 1/(h_prev + epsilon)` (l. 232), re-clamp `h` (l. 233-234) and
increment the counter (l. 235).  `none` is the `IndexError` of the forced
freeze. -/
def irPass (n : ℕ) (eps : ℚ) (nIt : ℕ) (h : ℕ → ℚ) (st : IRState) : Option IRState :=
  let S1 := freezeMon n eps h st.S
  let Sc1 := freezeUnmon n eps h st.Sc
  if distSq n h st.hprev ≤ eps ^ 2 ∨ st.it = nIt then
    (forcedPick n h S1).map (fun j =>
      { S := S1 ++ [j], Sc := Sc1, hprev := h,
        w := fun i => 1 / (h i + eps),
        hvec := clampVec h (S1 ++ [j]) Sc1, it := 1 })
  else
    some { S := S1, Sc := Sc1, hprev := h,
           w := fun i => 1 / (h i + eps),
           hvec := clampVec h S1 Sc1, it := st.it + 1 }

/-- Result of a run of the outer loop: normal exit with the final pair
`[locations_monitored, locations_unmonitored]`, a crash (`IndexError`),
or exhaustion of the fuel bound. -/
inductive RunOutcome where
  | ok (S Sc : List ℕ) : RunOutcome
  | crash : RunOutcome
  | fuelOut : RunOutcome
deriving DecidableEq

/-- The `while` loop of `networkPlanning_iterative` (IRNet_SST.py l. 220):
guard `len(S) + len(Sc) != n` checked before each pass, the pass `k` using
the solver output `hs k`.  `fuel` bounds the number of passes. -/
def irRun (n : ℕ) (eps : ℚ) (nIt : ℕ) (hs : ℕ → ℕ → ℚ) : ℕ → ℕ → IRState → RunOutcome
  | _, 0, _ => .fuelOut
  | k, fuel + 1, st =>
    if st.S.length + st.Sc.length = n then .ok st.S st.Sc
    else
      match irPass n eps nIt (hs k) st with
      | none => .crash
      | some st' => irRun n eps nIt hs (k + 1) fuel st'

/-- Invariant of a loop state: both lists are duplicate-free with entries
`< n` and the inner counter never exceeds `n_it`. -/
def IRInv (n nIt : ℕ) (st : IRState) : Prop :=
  st.S.Nodup ∧ st.Sc.Nodup ∧ (∀ i ∈ st.S, i < n) ∧ (∀ i ∈ st.Sc, i < n) ∧ st.it ≤ nIt

instance (n nIt : ℕ) (st : IRState) : Decidable (IRInv n nIt st) := by
  unfold IRInv; infer_instance

/-- Termination measure of a loop state. -/
def irMeasure (n nIt : ℕ) (st : IRState) : ℕ :=
  (2 * n - (st.S.length + st.Sc.length)) * (nIt + 1) + (nIt - st.it)

/-! ## Concrete loop data used by counterexamples and witnesses -/

/-- Initial state of a design run (IRNet_SST.py lines 747-750) for
`epsilon = 1/10`: `h_prev` all zeros, `w = 1/(0 + epsilon) = 10`, empty
partition, inner counter 0. -/
def irInitState : IRState :=
  { S := [], Sc := [], hvec := fun _ => 0, hprev := fun _ => 0,
    w := fun _ => 10, it := 0 }

/-- A solver-output sequence with all values in `[0,1]`: `1/2` everywhere
on the first pass, `1` everywhere afterwards. -/
def hsCrash : ℕ → ℕ → ℚ := fun k _ => if k = 0 then 1/2 else 1

/-- The constant solver-output sequence `1` at every index. -/
def hsOnes : ℕ → ℕ → ℚ := fun _ _ => 1

/-- A solver output `[4/5, 3/10]`. -/
def hvecMid : ℕ → ℚ := fun i => if i = 0 then 4/5 else 3/10

/-- A loop state on `n = 2` whose unmonitored set already contains index 0
and whose previous `h` equals `hvecMid`, so that the convergence test of
the next pass fires. -/
def stSc0 : IRState :=
  { S := [], Sc := [0], hvec := fun _ => 0, hprev := hvecMid,
    w := fun _ => 10, it := 0 }

/-- A solver output `[19/20, 1/2]`: index 0 crosses the monitored
threshold for `epsilon = 1/10`. -/
def hvecHi : ℕ → ℚ := fun i => if i = 0 then 19/20 else 1/2

/-- A solver output `[1/20, 1/2]`: index 0 crosses the unmonitored
threshold for `epsilon = 1/10`. -/
def hvecLo : ℕ → ℚ := fun i => if i = 0 then 1/20 else 1/2

/-- The state produced by one outer pass on solver output `hvecHi` from
`irInitState` (with `n = 2`, `epsilon = 1/10`, `n_it = 5`). -/
def stAfterHi : IRState :=
  { S := [0], Sc := [], hvec := clampVec hvecHi [0] [], hprev := hvecHi,
    w := fun i => 1 / (hvecHi i + 1/10), it := 1 }

/-! ## Variance model: selection matrix, Gram matrix, variances

`SensorPlacement.C_matrix` itself lives in the external `sensor_placement`
module, but the same construction appears inline in the sources as
`np.identity(n)[locations_measured]` (IRNet_SST.py l. 141, 798-799,
835-836, Dopt_placement.py l. 101, 720-721), which is what is embedded
here. -/

/-- Row-selection operator `C = np.identity(n)[locs]`: row `k` of `C` is
row `locs.get k` of the identity matrix.  The rows follow the order of
the input list `locs`. -/
def C_matrix (n : ℕ) (locs : List (Fin n)) : Matrix (Fin locs.length) (Fin n) ℚ :=
  (1 : Matrix (Fin n) (Fin n) ℚ).submatrix locs.get id

/-- Gram matrix `Psi.T @ C.T @ C @ Psi` of the measured rows
(IRNet_SST.py l. 759, Dopt_placement.py l. 681). -/
def gramMatrix {n r : ℕ} (Psi : Matrix (Fin n) (Fin r) ℚ) (locs : List (Fin n)) :
    Matrix (Fin r) (Fin r) ℚ :=
  Psiᵀ * (C_matrix n locs)ᵀ * C_matrix n locs * Psi

/-- Executable determinant over `ℚ` by Laplace expansion along the first
column; proved equal to `Matrix.det` below. -/
def detQ : {m : ℕ} → Matrix (Fin m) (Fin m) ℚ → ℚ
  | 0, _ => 1
  | m + 1, A => ∑ i : Fin (m + 1), (-1) ^ (i : ℕ) * A i 0 * detQ (A.submatrix i.succAbove Fin.succ)

/-- Executable adjugate over `ℚ`; proved equal to `Matrix.adjugate` below. -/
def adjQ {m : ℕ} (A : Matrix (Fin m) (Fin m) ℚ) : Matrix (Fin m) (Fin m) ℚ :=
  Matrix.of fun i j => detQ (A.updateRow j (Pi.single i 1))

/-- Exact matrix inverse by the adjugate formula, the value computed by
`np.linalg.inv` on a nonsingular argument (the singular case, where
`np.linalg.inv` raises `LinAlgError`, is handled at the call sites). -/
def matInv {m : ℕ} (A : Matrix (Fin m) (Fin m) ℚ) : Matrix (Fin m) (Fin m) ℚ :=
  (detQ A)⁻¹ • adjQ A

/-- Per-location error variance vector
`np.diag(Psi @ np.linalg.inv(Psi.T@C.T@C@Psi) @ Psi.T)`
(IRNet_SST.py l. 759 and 837-838, Dopt_placement.py l. 681 and 722). -/
def error_variance_vec {n r : ℕ} (Psi : Matrix (Fin n) (Fin r) ℚ) (locs : List (Fin n)) :
    Fin n → ℚ :=
  fun i => (Psi * matInv (gramMatrix Psi locs) * Psiᵀ) i i

/-- `worst_coordinate_variance`:
`np.diag(Psi @ np.linalg.inv(Psi.T@C.T@C@Psi) @ Psi.T).max()`.
`none` models the `LinAlgError` raised by `np.linalg.inv` on a singular
Gram matrix, which in exact arithmetic is a zero determinant. -/
def worst_coordinate_variance {n r : ℕ} (Psi : Matrix (Fin n) (Fin r) ℚ)
    (locs : List (Fin n)) : Option ℚ :=
  if detQ (gramMatrix Psi locs) = 0 then none
  else ((List.finRange n).map (error_variance_vec Psi locs)).max?

/-- Fully monitored worst-case variance in the SST design path
(IRNet_SST.py l. 734): `np.diagonal(Psi @ Psi.T).max()`. -/
def fully_monitored_network_max_variance {n r : ℕ}
    (Psi : Matrix (Fin n) (Fin r) ℚ) : Option ℚ :=
  ((List.finRange n).map (fun i => (Psi * Psiᵀ) i i)).max?

/-- `deployed_network_variance_threshold =
variance_threshold_ratio * fully_monitored_network_max_variance`
(IRNet_SST.py l. 742), the `rho` handed to the iterative placer. -/
def deployed_network_variance_threshold {n r : ℕ} (ratio : ℚ)
    (Psi : Matrix (Fin n) (Fin r) ℚ) : Option ℚ :=
  (fully_monitored_network_max_variance Psi).map (fun v => ratio * v)

/-- Fully monitored worst-case variance in the Dopt path
(Dopt_placement.py l. 711, IRNet_SST.py l. 824):
`np.diag(Psi @ np.linalg.inv(Psi.T @ Psi) @ Psi.T).max()`, with `none` for
the `LinAlgError` on a singular `Psi.T @ Psi`. -/
def fully_monitored_network_max_variance_Dopt {n r : ℕ}
    (Psi : Matrix (Fin n) (Fin r) ℚ) : Option ℚ :=
  if detQ (Psiᵀ * Psi) = 0 then none
  else ((List.finRange n).map (fun i => (Psi * matInv (Psiᵀ * Psi) * Psiᵀ) i i)).max?

/-- Threshold of the Dopt path (Dopt_placement.py l. 712). -/
def deployed_network_variance_threshold_Dopt {n r : ℕ} (ratio : ℚ)
    (Psi : Matrix (Fin n) (Fin r) ℚ) : Option ℚ :=
  (fully_monitored_network_max_variance_Dopt Psi).map (fun v => ratio * v)

/-- A concrete basis on two locations with one orthonormal column. -/
def PsiUnit : Matrix (Fin 2) (Fin 1) ℚ := Matrix.of ![![1], ![0]]

/-! ## recover_map (IRNet_SST.py lines 42-67) -/

/-- Number of non-NaN positions strictly below `t`: the value of the
running index `idx` of `recover_map` when the loop reaches position `t`. -/
def countFilled (idx_nan : List ℕ) (t : ℕ) : ℕ :=
  ((List.range t).filter (fun j => decide (j ∉ idx_nan))).length

/-- The loop of `recover_map` (IRNet_SST.py lines 59-63) over the listed
positions, carrying the running measurement index `idx`; a cell is `none`
(`np.nan`) at a position listed in `idx_nan` and the next entry of `y`
otherwise.  The outer `none` models the `IndexError` raised when `y` is
exhausted early. -/
def fillCells (y : List ℚ) (idx_nan : List ℕ) : List ℕ → ℕ → Option (List (Option ℚ))
  | [], _ => some []
  | i :: rest, idx =>
    if i ∈ idx_nan then
      (fillCells y idx_nan rest idx).map (fun cs => none :: cs)
    else
      match y.get? idx with
      | none => none
      | some v => (fillCells y idx_nan rest (idx + 1)).map (fun cs => some v :: cs)

/-- The flat vector `X_vect` of `recover_map` (IRNet_SST.py lines 57-63):
length `len(y) + len(idx_nan)`, NaN (`none`) at the positions in
`idx_nan`, the entries of `y` in order elsewhere. -/
def recover_vect (y : List ℚ) (idx_nan : List ℕ) : Option (List (Option ℚ)) :=
  fillCells y idx_nan (List.range (y.length + idx_nan.length)) 0

/-- `recover_map` (IRNet_SST.py lines 42-67): builds `X_vect` and reshapes
it to `n_rows x n_cols` in column-major (`order='F'`) order, so the matrix
entry at row `r`, column `c` is the flat entry at position `r + c*n_rows`.
The outer `none` covers the `IndexError` of the fill loop and the
`ValueError` `np.reshape` raises when `n_rows*n_cols` differs from the
length of `X_vect`. -/
def recover_map (y : List ℚ) (idx_nan : List ℕ) (n_rows n_cols : ℕ) :
    Option (Matrix (Fin n_rows) (Fin n_cols) (Option ℚ)) :=
  if n_rows * n_cols = y.length + idx_nan.length then
    (recover_vect y idx_nan).map
      (fun cs => Matrix.of fun r c => cs.getD (r.val + c.val * n_rows) none)
  else none

/-! ## Helper lemmas for the freeze and forced-freeze steps -/

theorem freezeMon_mem (n : ℕ) (eps : ℚ) (h : ℕ → ℚ) (S : List ℕ) (i : ℕ) :
    i ∈ freezeMon n eps h S ↔ i ∈ S ∨ (i < n ∧ 1 - eps ≤ h i) := by
  simp only [freezeMon, List.mem_append, List.mem_filter, List.mem_range,
    decide_eq_true_eq]
  tauto

theorem freezeUnmon_mem (n : ℕ) (eps : ℚ) (h : ℕ → ℚ) (Sc : List ℕ) (i : ℕ) :
    i ∈ freezeUnmon n eps h Sc ↔ i ∈ Sc ∨ (i < n ∧ h i ≤ eps) := by
  simp only [freezeUnmon, List.mem_append, List.mem_filter, List.mem_range,
    decide_eq_true_eq]
  tauto

theorem freezeMon_nodup (n : ℕ) (eps : ℚ) (h : ℕ → ℚ) (S : List ℕ) (hS : S.Nodup) :
    (freezeMon n eps h S).Nodup := by
  refine List.Nodup.append hS ((List.nodup_range n).filter _) ?_
  intro a haS hafilter
  rcases List.mem_filter.mp hafilter with ⟨-, hcond⟩
  exact (of_decide_eq_true hcond).2 haS

theorem freezeUnmon_nodup (n : ℕ) (eps : ℚ) (h : ℕ → ℚ) (Sc : List ℕ) (hSc : Sc.Nodup) :
    (freezeUnmon n eps h Sc).Nodup := by
  refine List.Nodup.append hSc ((List.nodup_range n).filter _) ?_
  intro a haSc hafilter
  rcases List.mem_filter.mp hafilter with ⟨-, hcond⟩
  exact (of_decide_eq_true hcond).2 haSc

theorem freezeMon_length_le (n : ℕ) (eps : ℚ) (h : ℕ → ℚ) (S : List ℕ) :
    S.length ≤ (freezeMon n eps h S).length := by
  simp only [freezeMon, List.length_append]
  exact Nat.le_add_right _ _

theorem freezeUnmon_length_le (n : ℕ) (eps : ℚ) (h : ℕ → ℚ) (Sc : List ℕ) :
    Sc.length ≤ (freezeUnmon n eps h Sc).length := by
  simp only [freezeUnmon, List.length_append]
  exact Nat.le_add_right _ _

theorem foldl_pickStep_mem (h : ℕ → ℚ) :
    ∀ (l : List ℕ) (acc : Option ℕ) (j : ℕ),
      l.foldl (pickStep h) acc = some j → j ∈ l ∨ acc = some j := by
  intro l
  induction l with
  | nil => exact fun acc j hj => Or.inr hj
  | cons a t ih =>
    intro acc j hj
    rcases ih (pickStep h acc a) j hj with hmem | hacc
    · exact Or.inl (List.mem_cons_of_mem a hmem)
    · cases acc with
      | none =>
        simp only [pickStep, Option.some.injEq] at hacc
        exact Or.inl (hacc ▸ List.mem_cons_self a t)
      | some j0 =>
        by_cases hle : h j0 ≤ h a
        · simp only [pickStep, if_pos hle, Option.some.injEq] at hacc
          exact Or.inl (hacc ▸ List.mem_cons_self a t)
        · simp only [pickStep, if_neg hle] at hacc
          exact Or.inr hacc

theorem foldl_pickStep_le (h : ℕ → ℚ) :
    ∀ (l : List ℕ) (acc : Option ℕ) (j : ℕ),
      l.foldl (pickStep h) acc = some j →
      (∀ i ∈ l, h i ≤ h j) ∧ (∀ j0, acc = some j0 → h j0 ≤ h j) := by
  intro l
  induction l with
  | nil =>
    intro acc j hj
    refine ⟨by simp, fun j0 h0 => ?_⟩
    rw [h0] at hj
    injection hj with e
    exact e ▸ le_refl _
  | cons a t ih =>
    intro acc j hj
    obtain ⟨h1, h2⟩ := ih (pickStep h acc a) j hj
    have ha : h a ≤ h j := by
      cases acc with
      | none => exact h2 a rfl
      | some j0 =>
        by_cases hle : h j0 ≤ h a
        · exact h2 a (by simp [pickStep, if_pos hle])
        · exact le_trans (le_of_lt (lt_of_not_le hle)) (h2 j0 (by simp [pickStep, if_neg hle]))
    refine ⟨fun i hi => ?_, fun j0 h0 => ?_⟩
    · rcases List.mem_cons.mp hi with rfl | hit
      · exact ha
      · exact h1 i hit
    · have hps : pickStep h acc a = pickStep h (some j0) a := by rw [h0]
      by_cases hle : h j0 ≤ h a
      · refine le_trans hle (h2 a ?_)
        rw [hps]
        simp [pickStep, if_pos hle]
      · refine h2 j0 ?_
        rw [hps]
        simp [pickStep, if_neg hle]

theorem forcedPick_mem {n : ℕ} {h : ℕ → ℚ} {S : List ℕ} {j : ℕ}
    (hj : forcedPick n h S = some j) : j < n ∧ j ∉ S := by
  rcases foldl_pickStep_mem h _ none j hj with hmem | h0
  · rcases List.mem_filter.mp hmem with ⟨hr, hc⟩
    exact ⟨List.mem_range.mp hr, of_decide_eq_true hc⟩
  · cases h0

theorem forcedPick_le {n : ℕ} {h : ℕ → ℚ} {S : List ℕ} {j : ℕ}
    (hj : forcedPick n h S = some j) : ∀ i, i < n → i ∉ S → h i ≤ h j := by
  intro i hi hiS
  refine (foldl_pickStep_le h _ none j hj).1 i ?_
  exact List.mem_filter.mpr ⟨List.mem_range.mpr hi, decide_eq_true hiS⟩

/-! ## Inversion of one outer pass -/

/-- Characterization of a successful outer pass: either the convergence /
counter condition did not fire (plain freeze, counter incremented), or it
fired and the forced freeze appended its pick, resetting the counter to 0
before the shared end-of-pass increment. -/
theorem irPass_eq_some {n : ℕ} {eps : ℚ} {nIt : ℕ} {h : ℕ → ℚ} {st st' : IRState}
    (hres : irPass n eps nIt h st = some st') :
    (¬(distSq n h st.hprev ≤ eps ^ 2 ∨ st.it = nIt) ∧
      st' = { S := freezeMon n eps h st.S, Sc := freezeUnmon n eps h st.Sc, hprev := h,
              w := fun i => 1 / (h i + eps),
              hvec := clampVec h (freezeMon n eps h st.S) (freezeUnmon n eps h st.Sc),
              it := st.it + 1 }) ∨
    ((distSq n h st.hprev ≤ eps ^ 2 ∨ st.it = nIt) ∧
      ∃ j, forcedPick n h (freezeMon n eps h st.S) = some j ∧
        st' = { S := freezeMon n eps h st.S ++ [j], Sc := freezeUnmon n eps h st.Sc,
                hprev := h, w := fun i => 1 / (h i + eps),
                hvec := clampVec h (freezeMon n eps h st.S ++ [j]) (freezeUnmon n eps h st.Sc),
                it := 1 }) := by
  unfold irPass at hres
  by_cases hc : distSq n h st.hprev ≤ eps ^ 2 ∨ st.it = nIt
  · right
    rw [if_pos hc] at hres
    rcases Option.map_eq_some'.mp hres with ⟨j, hj, hst⟩
    exact ⟨hc, j, hj, hst.symm⟩
  · left
    rw [if_neg hc] at hres
    injection hres with e
    exact ⟨hc, e.symm⟩

/-- A duplicate-free list of naturals all below `n` has length at most `n`. -/
theorem nodup_lt_length_le {l : List ℕ} {n : ℕ} (hl : l.Nodup) (hb : ∀ i ∈ l, i < n) :
    l.length ≤ n := by
  have hsub : l ⊆ List.range n := fun i hi => List.mem_range.mpr (hb i hi)
  simpa using (List.subperm_of_subset hl hsub).length_le

theorem irMeasure_arith1 (N K s s' it' itx : ℕ) (h1 : s + 1 ≤ s') (h2 : s' ≤ N)
    (h3 : it' ≤ K) :
    (N - s') * (K + 1) + (K - it') < (N - s) * (K + 1) + (K - itx) := by
  have hmul : ((N - s') + 1) * (K + 1) ≤ (N - s) * (K + 1) :=
    Nat.mul_le_mul_right _ (by omega)
  rw [Nat.succ_mul] at hmul
  omega

theorem irMeasure_arith2 (N K s s' it : ℕ) (h0 : s ≤ s') (h2 : s' ≤ N) (hit : it < K) :
    (N - s') * (K + 1) + (K - (it + 1)) < (N - s) * (K + 1) + (K - it) := by
  rcases Nat.eq_or_lt_of_le h0 with rfl | hlt
  · omega
  · exact irMeasure_arith1 N K s s' (it + 1) it hlt h2 (by omega)

/-- A successful outer pass preserves the state invariant and strictly
decreases the termination measure (provided `n_it >= 1`). -/
theorem irPass_inv_measure {n : ℕ} {eps : ℚ} {nIt : ℕ} {h : ℕ → ℚ} {st st' : IRState}
    (hnIt : 1 ≤ nIt) (hinv : IRInv n nIt st)
    (hres : irPass n eps nIt h st = some st') :
    IRInv n nIt st' ∧ irMeasure n nIt st' < irMeasure n nIt st := by
  obtain ⟨hSnd, hScnd, hSb, hScb, hit⟩ := hinv
  have hS1nd : (freezeMon n eps h st.S).Nodup := freezeMon_nodup n eps h st.S hSnd
  have hSc1nd : (freezeUnmon n eps h st.Sc).Nodup := freezeUnmon_nodup n eps h st.Sc hScnd
  have hS1b : ∀ i ∈ freezeMon n eps h st.S, i < n := by
    intro i hi
    rcases (freezeMon_mem n eps h st.S i).mp hi with hi | hi
    · exact hSb i hi
    · exact hi.1
  have hSc1b : ∀ i ∈ freezeUnmon n eps h st.Sc, i < n := by
    intro i hi
    rcases (freezeUnmon_mem n eps h st.Sc i).mp hi with hi | hi
    · exact hScb i hi
    · exact hi.1
  rcases irPass_eq_some hres with ⟨hc, hst⟩ | ⟨hc, j, hj, hst⟩
  · have hitlt : st.it < nIt := lt_of_le_of_ne hit (fun e => hc (Or.inr e))
    subst hst
    refine ⟨⟨hS1nd, hSc1nd, hS1b, hSc1b, by simpa using hitlt⟩, ?_⟩
    unfold irMeasure
    refine irMeasure_arith2 (2 * n) nIt (st.S.length + st.Sc.length)
      ((freezeMon n eps h st.S).length + (freezeUnmon n eps h st.Sc).length) st.it ?_ ?_ hitlt
    · exact Nat.add_le_add (freezeMon_length_le n eps h st.S)
        (freezeUnmon_length_le n eps h st.Sc)
    · have b1 := nodup_lt_length_le hS1nd hS1b
      have b2 := nodup_lt_length_le hSc1nd hSc1b
      omega
  · obtain ⟨hjn, hjS1⟩ := forcedPick_mem hj
    have hS2nd : (freezeMon n eps h st.S ++ [j]).Nodup := by
      refine List.Nodup.append hS1nd (List.nodup_singleton j) ?_
      intro a ha haj
      rcases List.mem_singleton.mp haj with rfl
      exact hjS1 ha
    have hS2b : ∀ i ∈ freezeMon n eps h st.S ++ [j], i < n := by
      intro i hi
      rcases List.mem_append.mp hi with hi | hi
      · exact hS1b i hi
      · rcases List.mem_singleton.mp hi with rfl
        exact hjn
    subst hst
    refine ⟨⟨hS2nd, hSc1nd, hS2b, hSc1b, hnIt⟩, ?_⟩
    unfold irMeasure
    refine irMeasure_arith1 (2 * n) nIt (st.S.length + st.Sc.length)
      ((freezeMon n eps h st.S ++ [j]).length + (freezeUnmon n eps h st.Sc).length) 1 st.it
      ?_ ?_ hnIt
    · have := freezeMon_length_le n eps h st.S
      have := freezeUnmon_length_le n eps h st.Sc
      simp only [List.length_append, List.length_singleton]
      omega
    · have b1 := nodup_lt_length_le hS2nd hS2b
      have b2 := nodup_lt_length_le hSc1nd hSc1b
      omega

/-- The outer loop, given fuel exceeding the measure, never exhausts its
fuel, and a normal exit happens exactly with
`len(locations_monitored) + len(locations_unmonitored) = n`. -/
theorem irRun_halts {n : ℕ} {eps : ℚ} {nIt : ℕ} (hs : ℕ → ℕ → ℚ) (hnIt : 1 ≤ nIt) :
    ∀ (fuel k : ℕ) (st : IRState), IRInv n nIt st → irMeasure n nIt st < fuel →
      irRun n eps nIt hs k fuel st ≠ .fuelOut ∧
      (∀ S Sc, irRun n eps nIt hs k fuel st = .ok S Sc → S.length + Sc.length = n) := by
  intro fuel
  induction fuel with
  | zero => intro k st _ hm; exact absurd hm (Nat.not_lt_zero _)
  | succ fuel ih =>
    intro k st hinv hm
    by_cases hguard : st.S.length + st.Sc.length = n
    · constructor
      · simp [irRun, hguard]
      · intro S Sc hok
        simp only [irRun, if_pos hguard, RunOutcome.ok.injEq] at hok
        rw [← hok.1, ← hok.2]
        exact hguard
    · rcases hpass : irPass n eps nIt (hs k) st with _ | st'
      · constructor
        · simp [irRun, hguard, hpass]
        · intro S Sc hok
          simp [irRun, hguard, hpass] at hok
      · obtain ⟨hinv', hm'⟩ := irPass_inv_measure hnIt hinv hpass
        have hrec := ih (k + 1) st' hinv' (by omega)
        constructor
        · simpa [irRun, hguard, hpass] using hrec.1
        · intro S Sc hok
          refine hrec.2 S Sc ?_
          simpa [irRun, hguard, hpass] using hok

/-! ## Generic matrix lemmas -/

theorem detQ_eq_det : ∀ {m : ℕ} (A : Matrix (Fin m) (Fin m) ℚ), detQ A = A.det
  | 0, A => (Matrix.det_fin_zero (A := A)).symm
  | m + 1, A => by
    rw [Matrix.det_succ_column_zero]
    unfold detQ
    exact Finset.sum_congr rfl fun i _ => by rw [detQ_eq_det]

theorem adjQ_eq_adjugate {m : ℕ} (A : Matrix (Fin m) (Fin m) ℚ) : adjQ A = A.adjugate := by
  ext i j
  rw [Matrix.adjugate_apply, adjQ, Matrix.of_apply, detQ_eq_det]

/-- The adjugate-formula inverse agrees with the Mathlib nonsingular
inverse (unconditionally over `ℚ`). -/
theorem matInv_eq_inv {m : ℕ} (A : Matrix (Fin m) (Fin m) ℚ) : matInv A = A⁻¹ := by
  rw [Matrix.inv_def, Ring.inverse_eq_inv', matInv, detQ_eq_det, adjQ_eq_adjugate]

/-- Behaviour of the end-of-pass re-clamp on the three kinds of indices. -/
theorem clampVec_spec (h : ℕ → ℚ) (S Sc : List ℕ) :
    (∀ i ∈ Sc, clampVec h S Sc i = 0) ∧
    (∀ i ∈ S, i ∉ Sc → clampVec h S Sc i = 1) ∧
    (∀ i, i ∉ S → i ∉ Sc → clampVec h S Sc i = h i) := by
  refine ⟨fun i hi => ?_, fun i hiS hiSc => ?_, fun i hiS hiSc => ?_⟩
  · simp [clampVec, hi]
  · simp [clampVec, hiS, hiSc]
  · simp [clampVec, hiS, hiSc]

/-! ## Claim C1 -/

unseal Rat.add Rat.mul Rat.sub Rat.inv in
/-- C1 counterexample: a valid configuration (`n = 2`, `rho` arbitrary,
`epsilon = 1/10` in `(0, 1/2)`, `n_it = 1`) and a solver-output sequence
in `[0,1]^2` — `[1/2, 1/2]` then constantly `[1, 1]` — on which the outer
loop does not terminate with a returned partition: on the second pass both
indices freeze into the monitored set and the inner counter reaches
`n_it`, so the forced-freeze expression
`[i for i in np.argsort(h)[::-1] if i not in locations_monitored][0]`
indexes an empty list and raises `IndexError`.  The first pass also
freezes no index at all, refuting the stated justification that every
outer pass freezes at least one new index. -/
theorem C1_counterexample :
    irRun 2 (1/10) 1 hsCrash 0 20 irInitState = RunOutcome.crash := by decide

/-- C1 (amended): for every configuration with `n_it >= 1`, every solver
sequence, and every well-formed starting state, the outer loop of
`networkPlanning_iterative` halts within `2*n*(n_it+1) + n_it + 1` outer
passes — but either normally, with
`len(locations_monitored) + len(locations_unmonitored) = n` exactly as the
loop guard states, or by raising `IndexError` in the forced-freeze step;
it is not the case that every outer pass freezes a new index, only that at
least one index is frozen in every `n_it + 1` consecutive passes. -/
theorem C1_amended_halts (n : ℕ) (eps : ℚ) (nIt : ℕ) (hs : ℕ → ℕ → ℚ) (st : IRState)
    (hnIt : 1 ≤ nIt) (hinv : IRInv n nIt st) :
    irRun n eps nIt hs 0 (2 * n * (nIt + 1) + nIt + 1) st ≠ RunOutcome.fuelOut ∧
    (∀ S Sc, irRun n eps nIt hs 0 (2 * n * (nIt + 1) + nIt + 1) st = RunOutcome.ok S Sc →
      S.length + Sc.length = n) := by
  refine irRun_halts hs hnIt _ 0 st hinv ?_
  unfold irMeasure
  have h1 : 2 * n - (st.S.length + st.Sc.length) ≤ 2 * n := Nat.sub_le _ _
  have h2 : nIt - st.it ≤ nIt := Nat.sub_le _ _
  have h3 := Nat.mul_le_mul_right (nIt + 1) h1
  omega

unseal Rat.add Rat.mul Rat.sub Rat.inv in
/-- C1 witness: the amended statement applied to the concrete run
`n = 1`, `epsilon = 1/10`, `n_it = 1`, solver output constantly `1`,
started from the initial state; the hypotheses are discharged by
computation. -/
theorem C1_amended_halts_witness :
    (1 ≤ 1 ∧ IRInv 1 1 irInitState) ∧
    (irRun 1 (1/10) 1 hsOnes 0 (2 * 1 * (1 + 1) + 1 + 1) irInitState ≠ RunOutcome.fuelOut ∧
      (∀ S Sc, irRun 1 (1/10) 1 hsOnes 0 (2 * 1 * (1 + 1) + 1 + 1) irInitState =
        RunOutcome.ok S Sc → S.length + Sc.length = 1)) :=
  ⟨⟨le_refl 1, by decide⟩,
    C1_amended_halts 1 (1/10) 1 hsOnes irInitState (le_refl 1) (by decide)⟩

/-! ## Claim C2 -/

unseal Rat.add Rat.mul Rat.sub Rat.inv in
/-- C2 counterexample: a pass on the state `stSc0` (monitored set empty,
unmonitored set `[0]`, `epsilon = 1/10`, previous `h` equal to the solver
output so the convergence test fires) with solver output `[4/5, 3/10]`.
The only still-undecided index (in neither set) is 1, so the claim says
index 1 is force-frozen; the code instead force-freezes index 0 — the
highest-`h` index *not in the monitored set* — even though index 0 is
already in the unmonitored set (the final conjunct shows index 0 has the
strictly largest `h`, so no tie-breaking is involved). -/
theorem C2_counterexample :
    (irPass 2 (1/10) 5 hvecMid stSc0).map IRState.S = some [0] ∧
    (irPass 2 (1/10) 5 hvecMid stSc0).map IRState.Sc = some [0] ∧
    hvecMid 1 < hvecMid 0 := by decide

/-- C2 (amended): whenever the solver's `h` satisfies
`dist(h, h_prev) <= epsilon` or the inner counter has reached `n_it`,
exactly one additional index `j` is appended to the monitored set, namely
an index with the highest `h` value among the indices *not already in the
monitored set* — a set that may well include members of the unmonitored
set — and the inner counter is reset (to 0 at IRNet_SST.py l. 229, which
the shared end-of-pass increment at l. 235 turns into 1). -/
theorem C2_amended_forced_freeze (n : ℕ) (eps : ℚ) (nIt : ℕ) (h : ℕ → ℚ) (st : IRState)
    (j : ℕ)
    (htrig : distSq n h st.hprev ≤ eps ^ 2 ∨ st.it = nIt)
    (hj : forcedPick n h (freezeMon n eps h st.S) = some j) :
    (irPass n eps nIt h st).map IRState.S = some (freezeMon n eps h st.S ++ [j]) ∧
    (irPass n eps nIt h st).map IRState.it = some 1 ∧
    j < n ∧ j ∉ freezeMon n eps h st.S ∧
    (∀ i, i < n → i ∉ freezeMon n eps h st.S → h i ≤ h j) := by
  have hpass : irPass n eps nIt h st =
      some { S := freezeMon n eps h st.S ++ [j], Sc := freezeUnmon n eps h st.Sc,
             hprev := h, w := fun i => 1 / (h i + eps),
             hvec := clampVec h (freezeMon n eps h st.S ++ [j]) (freezeUnmon n eps h st.Sc),
             it := 1 } := by
    unfold irPass
    rw [if_pos htrig, hj]
    rfl
  rw [hpass]
  exact ⟨rfl, rfl, (forcedPick_mem hj).1, (forcedPick_mem hj).2, forcedPick_le hj⟩

unseal Rat.add Rat.mul Rat.sub Rat.inv in
/-- C2 witness: the amended statement applied to the concrete pass of the
counterexample (`n = 2`, `epsilon = 1/10`, `n_it = 5`, state `stSc0`,
solver output `[4/5, 3/10]`, picked index 0), hypotheses discharged by
computation. -/
theorem C2_amended_forced_freeze_witness :
    ((distSq 2 hvecMid stSc0.hprev ≤ (1/10 : ℚ) ^ 2 ∨ stSc0.it = 5) ∧
      forcedPick 2 hvecMid (freezeMon 2 (1/10) hvecMid stSc0.S) = some 0) ∧
    ((irPass 2 (1/10) 5 hvecMid stSc0).map IRState.S =
        some (freezeMon 2 (1/10) hvecMid stSc0.S ++ [0]) ∧
      (irPass 2 (1/10) 5 hvecMid stSc0).map IRState.it = some 1 ∧
      0 < 2 ∧ 0 ∉ freezeMon 2 (1/10) hvecMid stSc0.S ∧
      (∀ i, i < 2 → i ∉ freezeMon 2 (1/10) hvecMid stSc0.S → hvecMid i ≤ hvecMid 0)) :=
  ⟨⟨by decide, by decide⟩,
    C2_amended_forced_freeze 2 (1/10) 5 hvecMid stSc0 0 (by decide) (by decide)⟩

/-! ## Claim C3 -/

/-- C3: on an outer pass with solver output `h`, the freeze step of
IRNet_SST.py lines 224-225 (the functions `freezeMon` and `freezeUnmon`
used by `irPass`) appends to `locations_monitored` exactly the indices
`i < n` with `h i >= 1 - epsilon` that are not already in it, in
increasing order, and appends to `locations_unmonitored` exactly the
indices `i < n` with `h i <= epsilon` that are not already in it; the
resulting lists have no duplicates whenever the starting lists have none,
so no index is inserted into the same set twice. -/
theorem C3_freeze_step (n : ℕ) (eps : ℚ) (h : ℕ → ℚ) (S Sc : List ℕ)
    (hS : S.Nodup) (hSc : Sc.Nodup) :
    freezeMon n eps h S
        = S ++ (List.range n).filter (fun i => decide (1 - eps ≤ h i ∧ i ∉ S)) ∧
    freezeUnmon n eps h Sc
        = Sc ++ (List.range n).filter (fun i => decide (h i ≤ eps ∧ i ∉ Sc)) ∧
    (∀ i, i ∈ freezeMon n eps h S ↔ i ∈ S ∨ (i < n ∧ 1 - eps ≤ h i)) ∧
    (∀ i, i ∈ freezeUnmon n eps h Sc ↔ i ∈ Sc ∨ (i < n ∧ h i ≤ eps)) ∧
    (freezeMon n eps h S).Nodup ∧ (freezeUnmon n eps h Sc).Nodup :=
  ⟨rfl, rfl, freezeMon_mem n eps h S, freezeUnmon_mem n eps h Sc,
    freezeMon_nodup n eps h S hS, freezeUnmon_nodup n eps h Sc hSc⟩

unseal Rat.add Rat.mul Rat.sub Rat.inv in
/-- C3 witness: the freeze-step characterization applied to the concrete
data `n = 2`, `epsilon = 1/10`, `h = [19/20, 1/2]`, starting sets `[1]`
and `[]`. -/
theorem C3_freeze_step_witness :
    (List.Nodup [1] ∧ List.Nodup ([] : List ℕ)) ∧
    (freezeMon 2 (1/10) hvecHi [1]
        = [1] ++ (List.range 2).filter (fun i => decide (1 - 1/10 ≤ hvecHi i ∧ i ∉ [1])) ∧
      freezeUnmon 2 (1/10) hvecHi []
        = [] ++ (List.range 2).filter (fun i => decide (hvecHi i ≤ 1/10 ∧ i ∉ ([] : List ℕ))) ∧
      (∀ i, i ∈ freezeMon 2 (1/10) hvecHi [1] ↔ i ∈ [1] ∨ (i < 2 ∧ 1 - 1/10 ≤ hvecHi i)) ∧
      (∀ i, i ∈ freezeUnmon 2 (1/10) hvecHi [] ↔
        i ∈ ([] : List ℕ) ∨ (i < 2 ∧ hvecHi i ≤ 1/10)) ∧
      (freezeMon 2 (1/10) hvecHi [1]).Nodup ∧ (freezeUnmon 2 (1/10) hvecHi []).Nodup) :=
  ⟨⟨by decide, by decide⟩,
    C3_freeze_step 2 (1/10) hvecHi [1] [] (by decide) (by decide)⟩

/-! ## Claim C4 -/

unseal Rat.add Rat.mul Rat.sub Rat.inv in
/-- C4 counterexample: starting from the default initial state on `n = 2`
(`epsilon = 1/10`, `n_it = 5`), the solver outputs `[19/20, 1/2]` and then
`[1/20, 1/2]` — both in `[0,1]^2` — produce after two passes
`locations_monitored = [0]` and `locations_unmonitored = [0]`: index 0 is
in both sets, so the two sets do not remain disjoint (the second freeze
step checks membership only against the unmonitored set). -/
theorem C4_counterexample :
    ((irPass 2 (1/10) 5 hvecHi irInitState).bind (irPass 2 (1/10) 5 hvecLo)).map
        IRState.S = some [0] ∧
    ((irPass 2 (1/10) 5 hvecHi irInitState).bind (irPass 2 (1/10) 5 hvecLo)).map
        IRState.Sc = some [0] := by decide

/-- C4 (amended): the partition state is monotone — a successful outer
pass only ever appends to `locations_monitored` and
`locations_unmonitored`, so once an index is added it is never removed
across outer iterations — but the two sets need not stay disjoint: the
freeze and forced-freeze steps check membership only against the set being
extended, so an index of one set can later also be appended to the
other. -/
theorem C4_amended_monotone (n : ℕ) (eps : ℚ) (nIt : ℕ) (h : ℕ → ℚ) (st st' : IRState)
    (hres : irPass n eps nIt h st = some st') :
    (∀ i ∈ st.S, i ∈ st'.S) ∧ (∀ i ∈ st.Sc, i ∈ st'.Sc) := by
  rcases irPass_eq_some hres with ⟨-, hst⟩ | ⟨-, j, -, hst⟩ <;> subst hst
  · exact ⟨fun i hi => List.mem_append_left _ hi, fun i hi => List.mem_append_left _ hi⟩
  · exact ⟨fun i hi => List.mem_append_left _ (List.mem_append_left _ hi),
      fun i hi => List.mem_append_left _ hi⟩

unseal Rat.add Rat.mul Rat.sub Rat.inv in
/-- C4 witness: monotonicity applied to the concrete pass from
`irInitState` with solver output `[19/20, 1/2]`, which ends in state
`stAfterHi`. -/
theorem C4_amended_monotone_witness :
    irPass 2 (1/10) 5 hvecHi irInitState = some stAfterHi ∧
    ((∀ i ∈ irInitState.S, i ∈ stAfterHi.S) ∧
      (∀ i ∈ irInitState.Sc, i ∈ stAfterHi.Sc)) :=
  ⟨by rfl, C4_amended_monotone 2 (1/10) 5 hvecHi irInitState stAfterHi (by rfl)⟩

/-! ## Claim C5 -/

unseal Rat.add Rat.mul Rat.sub Rat.inv in
/-- C5 counterexample: continuing the reachable two-pass run of the C4
counterexample (`n = 2`, `epsilon = 1/10`, `n_it = 5`, solver outputs
`[19/20, 1/2]` then `[1/20, 1/2]` from the initial state), the resulting
state has index 0 in the monitored set (`S = [0]`) yet its re-clamped
`h`-value is 0, not 1: line 234 (`h[locations_unmonitored] = 0`) runs
after line 233 (`h[locations_monitored] = 1`) and wins on an index that
sits in both sets.  So it is not the case that `h` is re-clamped to 1 at
every index of `S` on every outer iteration. -/
theorem C5_counterexample :
    ((irPass 2 (1/10) 5 hvecHi irInitState).bind (irPass 2 (1/10) 5 hvecLo)).map
        IRState.S = some [0] ∧
    ((irPass 2 (1/10) 5 hvecHi irInitState).bind (irPass 2 (1/10) 5 hvecLo)).map
        (fun st => st.hvec 0) = some 0 := by decide

/-- C5 (amended): at the end of every successful outer pass with solver
output `h`, the reweighting vector is `w i = 1/(h i + epsilon)` for all
`i`, computed from the raw `h` of that pass's solve (recorded unchanged in
`h_prev`); afterwards `h` is re-clamped to 0 at every index of the updated
unmonitored set and to 1 at every index of the updated monitored set *not
also in the unmonitored set* — the unmonitored assignment runs last and
wins on a shared index — while indices in neither set keep their solver
value. -/
theorem C5_reweight_clamp (n : ℕ) (eps : ℚ) (nIt : ℕ) (h : ℕ → ℚ) (st st' : IRState)
    (hres : irPass n eps nIt h st = some st') :
    st'.w = (fun i => 1 / (h i + eps)) ∧
    st'.hprev = h ∧
    (∀ i ∈ st'.S, i ∉ st'.Sc → st'.hvec i = 1) ∧
    (∀ i ∈ st'.Sc, st'.hvec i = 0) ∧
    (∀ i, i ∉ st'.S → i ∉ st'.Sc → st'.hvec i = h i) := by
  rcases irPass_eq_some hres with ⟨-, hst⟩ | ⟨-, j, -, hst⟩ <;> subst hst
  · refine ⟨rfl, rfl, fun i hi hiSc => ?_, fun i hi => ?_, fun i hiS hiSc => ?_⟩
    · exact (clampVec_spec h _ _).2.1 i hi hiSc
    · exact (clampVec_spec h _ _).1 i hi
    · exact (clampVec_spec h _ _).2.2 i hiS hiSc
  · refine ⟨rfl, rfl, fun i hi hiSc => ?_, fun i hi => ?_, fun i hiS hiSc => ?_⟩
    · exact (clampVec_spec h _ _).2.1 i hi hiSc
    · exact (clampVec_spec h _ _).1 i hi
    · exact (clampVec_spec h _ _).2.2 i hiS hiSc

unseal Rat.add Rat.mul Rat.sub Rat.inv in
/-- C5 witness: the amended reweight-and-clamp statement applied to the
concrete pass from `irInitState` with solver output `[19/20, 1/2]` (final
state `stAfterHi`). -/
theorem C5_reweight_clamp_witness :
    irPass 2 (1/10) 5 hvecHi irInitState = some stAfterHi ∧
    (stAfterHi.w = (fun i => 1 / (hvecHi i + 1/10)) ∧
      stAfterHi.hprev = hvecHi ∧
      (∀ i ∈ stAfterHi.S, i ∉ stAfterHi.Sc → stAfterHi.hvec i = 1) ∧
      (∀ i ∈ stAfterHi.Sc, stAfterHi.hvec i = 0) ∧
      (∀ i, i ∉ stAfterHi.S → i ∉ stAfterHi.Sc → stAfterHi.hvec i = hvecHi i)) :=
  ⟨by rfl,
    C5_reweight_clamp 2 (1/10) 5 hvecHi irInitState stAfterHi (by rfl)⟩

/-! ## Claim C6 -/

/-- C6: for every basis `Psi` and monitored subset whose Gram matrix
`Psi.T C.T C Psi` is invertible (with two-sided inverse `B`), the
per-location error variance computed by the engine equals the vector
`diag(Psi B Psi.T)` of length `n`, and the reported
`worst_coordinate_variance` is the maximum of that vector over the `n`
locations. -/
theorem C6_variance_model (n r : ℕ) (Psi : Matrix (Fin n) (Fin r) ℚ)
    (locs : List (Fin n)) (B : Matrix (Fin r) (Fin r) ℚ)
    (hB : gramMatrix Psi locs * B = 1) :
    error_variance_vec Psi locs = (fun i => (Psi * B * Psiᵀ) i i) ∧
    worst_coordinate_variance Psi locs =
      ((List.finRange n).map (fun i => (Psi * B * Psiᵀ) i i)).max? := by
  have hinv : matInv (gramMatrix Psi locs) = B := by
    rw [matInv_eq_inv]
    exact Matrix.inv_eq_right_inv hB
  have hdet : detQ (gramMatrix Psi locs) ≠ 0 := by
    rw [detQ_eq_det]
    intro h0
    have hd := congrArg Matrix.det hB
    rw [Matrix.det_mul, Matrix.det_one, h0, zero_mul] at hd
    exact zero_ne_one hd
  have hvec : error_variance_vec Psi locs = (fun i => (Psi * B * Psiᵀ) i i) := by
    funext i
    rw [error_variance_vec, hinv]
  refine ⟨hvec, ?_⟩
  rw [worst_coordinate_variance, if_neg hdet, hvec]

unseal Rat.add Rat.mul Rat.sub Rat.inv in
/-- C6 witness: the variance-model statement applied to the concrete
orthonormal basis `PsiUnit` on two locations with monitored subset `[0]`,
whose Gram matrix is the 1x1 identity (inverse `B = 1`). -/
theorem C6_variance_model_witness :
    (gramMatrix PsiUnit [0] * (1 : Matrix (Fin 1) (Fin 1) ℚ) = 1) ∧
    (error_variance_vec PsiUnit [0] =
        (fun i => (PsiUnit * (1 : Matrix (Fin 1) (Fin 1) ℚ) * PsiUnitᵀ) i i) ∧
      worst_coordinate_variance PsiUnit [0] =
        ((List.finRange 2).map
          (fun i => (PsiUnit * (1 : Matrix (Fin 1) (Fin 1) ℚ) * PsiUnitᵀ) i i)).max?) :=
  ⟨by decide, C6_variance_model 2 1 PsiUnit [0] 1 (by decide)⟩

/-! ## Claim C7 -/

/-- C7: the threshold `rho` passed to the iterative placer is
`variance_threshold_ratio` times the fully monitored network's worst-case
coordinate variance; under the orthonormal-columns input contract
(`Psi.T Psi = 1`) the SST computation `max diag(Psi Psi.T)` coincides with
`max diag(Psi (Psi.T Psi)^{-1} Psi.T)`, the form used by the Dopt path, so
the threshold is the same ratio-relative quantity in both paths. -/
theorem C7_variance_threshold (n r : ℕ) (Psi : Matrix (Fin n) (Fin r) ℚ) (ratio : ℚ)
    (hortho : Psiᵀ * Psi = 1) :
    deployed_network_variance_threshold ratio Psi =
      (((List.finRange n).map
        (fun i => (Psi * matInv (Psiᵀ * Psi) * Psiᵀ) i i)).max?).map (fun v => ratio * v) ∧
    deployed_network_variance_threshold ratio Psi =
      deployed_network_variance_threshold_Dopt ratio Psi := by
  have h1 : matInv (Psiᵀ * Psi) = 1 := by
    rw [hortho, matInv_eq_inv]
    exact Matrix.inv_eq_right_inv (one_mul 1)
  have hdiag : (fun i => (Psi * matInv (Psiᵀ * Psi) * Psiᵀ) i i)
      = (fun i : Fin n => (Psi * Psiᵀ) i i) := by
    funext i
    rw [h1, Matrix.mul_one]
  have hdet : detQ (Psiᵀ * Psi) ≠ 0 := by
    rw [hortho, detQ_eq_det, Matrix.det_one]
    norm_num
  constructor
  · rw [deployed_network_variance_threshold, fully_monitored_network_max_variance, hdiag]
  · rw [deployed_network_variance_threshold, deployed_network_variance_threshold_Dopt,
      fully_monitored_network_max_variance, fully_monitored_network_max_variance_Dopt,
      if_neg hdet, hdiag]

unseal Rat.add Rat.mul Rat.sub Rat.inv in
/-- C7 witness: the threshold statement applied to the concrete orthonormal
basis `PsiUnit` with `variance_threshold_ratio = 2`. -/
theorem C7_variance_threshold_witness :
    (PsiUnitᵀ * PsiUnit = 1) ∧
    (deployed_network_variance_threshold 2 PsiUnit =
        (((List.finRange 2).map
          (fun i => (PsiUnit * matInv (PsiUnitᵀ * PsiUnit) * PsiUnitᵀ) i i)).max?).map
          (fun v => 2 * v) ∧
      deployed_network_variance_threshold 2 PsiUnit =
        deployed_network_variance_threshold_Dopt 2 PsiUnit) :=
  ⟨by decide, C7_variance_threshold 2 1 PsiUnit 2 (by decide)⟩

/-! ## Claim C8 -/

unseal Rat.add Rat.mul Rat.sub Rat.inv in
/-- C8 counterexample: the row-selection operator
`np.identity(n)[locations_measured]` depends on the order of the index
list, not only on the underlying set: the two orderings `[1, 0]` and
`[0, 1]` of the same two-element set produce different matrices (the rows
appear in input order, not in ascending order). -/
theorem C8_counterexample : C_matrix 2 [1, 0] ≠ C_matrix 2 [0, 1] := by decide

/-- C8 (amended): row `k` of `C_matrix n locs` is the standard basis
vector at index `locs.get k`, so the operator lists the selected rows in
input order and is order-dependent; it is order-independent only after
sorting — which every call site performs via `np.sort` — since any two
orderings of the same index set have the same sorted list and hence an
identical `C` with rows in ascending index order. -/
theorem C8_amended_sorted (n : ℕ) (l1 l2 : List (Fin n)) (hp : l1.Perm l2) :
    List.insertionSort (· ≤ ·) l1 = List.insertionSort (· ≤ ·) l2 ∧
    (∀ (k : Fin l1.length) (j : Fin n),
      C_matrix n l1 k j = if l1.get k = j then 1 else 0) := by
  constructor
  · refine List.eq_of_perm_of_sorted ?_ (List.sorted_insertionSort _ l1)
      (List.sorted_insertionSort _ l2)
    exact (List.perm_insertionSort _ l1).trans (hp.trans (List.perm_insertionSort _ l2).symm)
  · intro k j
    rw [C_matrix, Matrix.submatrix_apply, id_eq, Matrix.one_apply]

unseal Rat.add Rat.mul Rat.sub Rat.inv in
/-- C8 witness: the amended statement applied to the two concrete
orderings `[1, 0]` and `[0, 1]` of the same index set in `Fin 2`. -/
theorem C8_amended_sorted_witness :
    (([1, 0] : List (Fin 2)).Perm [0, 1]) ∧
    (List.insertionSort (· ≤ ·) ([1, 0] : List (Fin 2)) =
        List.insertionSort (· ≤ ·) ([0, 1] : List (Fin 2)) ∧
      (∀ (k : Fin (([1, 0] : List (Fin 2))).length) (j : Fin 2),
        C_matrix 2 [1, 0] k j = if ([1, 0] : List (Fin 2)).get k = j then 1 else 0)) :=
  ⟨by decide, C8_amended_sorted 2 [1, 0] [0, 1] (by decide)⟩

/-! ## Claim C9 -/

unseal Rat.add Rat.mul Rat.sub Rat.inv in
/-- C9 counterexample: for `Psi` the 2x2 identity (`r = 2`) and candidate
subset `[0]` (`|S| < r`), the Gram matrix is singular and the variance
evaluation produces no value at all — `np.linalg.inv` raises
`LinAlgError` — instead of recovering locally with a pseudo-inverse and
flagging the estimate as approximate, as the claim states. -/
theorem C9_counterexample :
    worst_coordinate_variance (1 : Matrix (Fin 2) (Fin 2) ℚ) [0] = none := by decide

/-- C9 (amended): the variance evaluation fails (an exception, modelled as
`none`) exactly when the Gram matrix `Psi.T C.T C Psi` has no right
inverse; a singular Gram matrix is thus always signalled by an error and
never yields a silent NaN or infinite variance, but there is no local
pseudo-inverse fallback and no approximate flag in this evaluator. -/
theorem C9_amended_singular_signal (n r : ℕ) (Psi : Matrix (Fin n) (Fin r) ℚ)
    (locs : List (Fin n)) (hn : 0 < n) :
    worst_coordinate_variance Psi locs = none ↔
      ¬ ∃ B : Matrix (Fin r) (Fin r) ℚ, gramMatrix Psi locs * B = 1 := by
  rw [worst_coordinate_variance]
  by_cases hdet : detQ (gramMatrix Psi locs) = 0
  · rw [if_pos hdet]
    constructor
    · rintro - ⟨B, hB⟩
      have hd := congrArg Matrix.det hB
      rw [detQ_eq_det] at hdet
      rw [Matrix.det_mul, Matrix.det_one, hdet, zero_mul] at hd
      exact zero_ne_one hd
    · intro _
      rfl
  · rw [if_neg hdet]
    constructor
    · intro hmax
      exfalso
      obtain ⟨m, rfl⟩ := Nat.exists_eq_succ_of_ne_zero (Nat.pos_iff_ne_zero.mp hn)
      rw [List.finRange_succ_eq_map] at hmax
      simp [List.max?] at hmax
    · intro hnoB
      exfalso
      refine hnoB ⟨matInv (gramMatrix Psi locs), ?_⟩
      rw [matInv_eq_inv]
      refine Matrix.mul_nonsing_inv _ ?_
      rw [← detQ_eq_det]
      exact isUnit_iff_ne_zero.mpr hdet

unseal Rat.add Rat.mul Rat.sub Rat.inv in
/-- C9 witness: the amended statement applied to the concrete singular
configuration of the counterexample (`Psi` the 2x2 identity, subset
`[0]`). -/
theorem C9_amended_singular_signal_witness :
    (0 < 2) ∧
    (worst_coordinate_variance (1 : Matrix (Fin 2) (Fin 2) ℚ) [0] = none ↔
      ¬ ∃ B : Matrix (Fin 2) (Fin 2) ℚ,
        gramMatrix (1 : Matrix (Fin 2) (Fin 2) ℚ) [0] * B = 1) :=
  ⟨by decide, C9_amended_singular_signal 2 2 1 [0] (by decide)⟩

/-! ## Claim C10 -/

/-- Among the first `N` positions, the positions kept (not NaN) and the
positions dropped (NaN) partition the range. -/
theorem filter_not_mem_range_length (S : List ℕ) (N : ℕ) (hnd : S.Nodup)
    (hb : ∀ x ∈ S, x < N) :
    ((List.range N).filter (fun j => decide (j ∉ S))).length = N - S.length := by
  have hmemlen : ((List.range N).filter (fun j => decide (j ∈ S))).length = S.length := by
    have h1 : ((List.range N).filter (fun j => decide (j ∈ S))).Nodup :=
      (List.nodup_range N).filter _
    have hsub1 : ((List.range N).filter (fun j => decide (j ∈ S))) ⊆ S := by
      intro x hx
      rcases List.mem_filter.mp hx with ⟨-, h⟩
      exact of_decide_eq_true h
    have hsub2 : S ⊆ (List.range N).filter (fun j => decide (j ∈ S)) := by
      intro x hx
      exact List.mem_filter.mpr ⟨List.mem_range.mpr (hb x hx), decide_eq_true hx⟩
    exact Nat.le_antisymm ((List.subperm_of_subset h1 hsub1).length_le)
      ((List.subperm_of_subset hnd hsub2).length_le)
  have hsplit := List.length_eq_length_filter_add (l := List.range N)
    (fun j => decide (j ∈ S))
  have hnoteq : (List.range N).filter (fun j => !(decide (j ∈ S)))
      = (List.range N).filter (fun j => decide (j ∉ S)) := by
    apply List.filter_congr
    intro x _
    simp [decide_not]
  rw [hnoteq] at hsplit
  rw [List.length_range] at hsplit
  omega

/-- `countFilled` grows strictly past any non-NaN position. -/
theorem countFilled_lt (idx_nan : List ℕ) (t1 t2 : ℕ) (h12 : t1 < t2)
    (ht1 : t1 ∉ idx_nan) :
    countFilled idx_nan t1 < countFilled idx_nan t2 := by
  have hstep : countFilled idx_nan t1 + 1 ≤ countFilled idx_nan (t1 + 1) := by
    unfold countFilled
    rw [List.range_succ, List.filter_append, List.length_append]
    simp [ht1]
  have hmono : countFilled idx_nan (t1 + 1) ≤ countFilled idx_nan t2 := by
    unfold countFilled
    exact List.Sublist.length_le ((List.range_sublist.mpr h12).filter _)
  omega

/-- Specification of the fill loop of `recover_map`: on any position list
`l` with running index `idx`, if `y` has enough entries for the non-NaN
positions of `l`, the loop succeeds, produces one cell per position, and
writes NaN exactly at the listed NaN positions and the successive entries
of `y` elsewhere. -/
theorem fillCells_spec (y : List ℚ) (idx_nan : List ℕ) :
    ∀ (l : List ℕ) (idx : ℕ),
      idx + (l.filter (fun j => decide (j ∉ idx_nan))).length ≤ y.length →
      ∃ cs, fillCells y idx_nan l idx = some cs ∧ cs.length = l.length ∧
        ∀ k (hk : k < l.length),
          cs.getD k none =
            if l.get ⟨k, hk⟩ ∈ idx_nan then none
            else y.get? (idx + ((l.take k).filter (fun j => decide (j ∉ idx_nan))).length) := by
  intro l
  induction l with
  | nil =>
    intro idx _
    exact ⟨[], rfl, rfl, fun k hk => absurd hk (Nat.not_lt_zero k)⟩
  | cons a t ih =>
    intro idx hlen
    rw [List.filter_cons] at hlen
    by_cases ha : a ∈ idx_nan
    · have hlen' : idx + (t.filter (fun j => decide (j ∉ idx_nan))).length ≤ y.length := by
        simpa [ha] using hlen
      obtain ⟨cs, hcs, hlencs, hspec⟩ := ih idx hlen'
      refine ⟨none :: cs, ?_, by simp [hlencs], ?_⟩
      · unfold fillCells
        rw [if_pos ha, hcs]
        rfl
      · intro k hk
        cases k with
        | zero => simp [ha]
        | succ k' =>
          have hk' : k' < t.length := by simpa using hk
          have hget : (a :: t).get ⟨k' + 1, hk⟩ = t.get ⟨k', hk'⟩ := rfl
          have hcount :
              ((List.take (k' + 1) (a :: t)).filter (fun j => decide (j ∉ idx_nan))).length
                = ((List.take k' t).filter (fun j => decide (j ∉ idx_nan))).length := by
            rw [List.take_succ_cons, List.filter_cons]
            simp [ha]
          rw [List.getD_cons_succ, hspec k' hk', hget, hcount]
    · have hkeep : idx + 1 + (t.filter (fun j => decide (j ∉ idx_nan))).length ≤ y.length := by
        have h2 : idx + ((t.filter (fun j => decide (j ∉ idx_nan))).length + 1) ≤ y.length := by
          simpa [ha] using hlen
        omega
      have hidx : idx < y.length := by omega
      have hy : y.get? idx = some (y.get ⟨idx, hidx⟩) := List.get?_eq_get hidx
      obtain ⟨cs, hcs, hlencs, hspec⟩ := ih (idx + 1) hkeep
      refine ⟨some (y.get ⟨idx, hidx⟩) :: cs, ?_, by simp [hlencs], ?_⟩
      · unfold fillCells
        rw [if_neg ha, hy, hcs]
        rfl
      · intro k hk
        cases k with
        | zero =>
          have hget : (a :: t).get ⟨0, hk⟩ = a := rfl
          rw [List.getD_cons_zero, hget, if_neg ha, List.take_zero, List.filter_nil,
            List.length_nil, Nat.add_zero, hy]
        | succ k' =>
          have hk' : k' < t.length := by simpa using hk
          have hget : (a :: t).get ⟨k' + 1, hk⟩ = t.get ⟨k', hk'⟩ := rfl
          have hcount :
              ((List.take (k' + 1) (a :: t)).filter (fun j => decide (j ∉ idx_nan))).length
                = ((List.take k' t).filter (fun j => decide (j ∉ idx_nan))).length + 1 := by
            rw [List.take_succ_cons, List.filter_cons]
            simp [ha]
          have hadd : idx + (((List.take k' t).filter
              (fun j => decide (j ∉ idx_nan))).length + 1)
                = idx + 1 + ((List.take k' t).filter (fun j => decide (j ∉ idx_nan))).length := by
            omega
          rw [List.getD_cons_succ, hspec k' hk', hget, hcount, hadd]

/-- C10: for measurements `y`, a duplicate-free in-range NaN index list,
and `n_rows * n_cols = len(y) + len(idx_nan)`, `recover_map` returns an
`n_rows x n_cols` matrix filled in column-major order from a flat vector
of length `len(y) + len(idx_nan)` that is NaN exactly at the positions of
`idx_nan` and holds the entries of `y`, in their original order, at the
remaining positions in increasing position order (the running index
`countFilled` is strictly monotone over non-NaN positions and stays below
`len(y)`). -/
theorem C10_recover_map (y : List ℚ) (idx_nan : List ℕ) (n_rows n_cols : ℕ)
    (hnd : idx_nan.Nodup)
    (hrange : ∀ x ∈ idx_nan, x < y.length + idx_nan.length)
    (hsize : n_rows * n_cols = y.length + idx_nan.length) :
    ∃ M, recover_map y idx_nan n_rows n_cols = some M ∧
      (∀ (r : Fin n_rows) (c : Fin n_cols),
        M r c = if (r.val + c.val * n_rows) ∈ idx_nan then none
          else y.get? (countFilled idx_nan (r.val + c.val * n_rows))) ∧
      (∀ t1 t2 : ℕ, t1 < t2 → t1 ∉ idx_nan →
        countFilled idx_nan t1 < countFilled idx_nan t2) ∧
      (∀ (r : Fin n_rows) (c : Fin n_cols), (r.val + c.val * n_rows) ∉ idx_nan →
        countFilled idx_nan (r.val + c.val * n_rows) < y.length) := by
  have hfl : ((List.range (y.length + idx_nan.length)).filter
      (fun j => decide (j ∉ idx_nan))).length = y.length := by
    rw [filter_not_mem_range_length idx_nan _ hnd hrange]
    omega
  obtain ⟨cs, hcs, hlen, hspec⟩ := fillCells_spec y idx_nan
    (List.range (y.length + idx_nan.length)) 0 (by rw [hfl]; omega)
  have hpos : ∀ (r : Fin n_rows) (c : Fin n_cols),
      r.val + c.val * n_rows < y.length + idx_nan.length := by
    intro r c
    have h1 : r.val + c.val * n_rows < (c.val + 1) * n_rows := by
      have hr := r.isLt
      rw [Nat.succ_mul]
      omega
    have h2 : (c.val + 1) * n_rows ≤ n_cols * n_rows := Nat.mul_le_mul_right _ c.isLt
    rw [Nat.mul_comm n_cols n_rows] at h2
    omega
  refine ⟨Matrix.of fun r c => cs.getD (r.val + c.val * n_rows) none, ?_, ?_,
    countFilled_lt idx_nan, ?_⟩
  · rw [recover_map, if_pos hsize, recover_vect, hcs]
    rfl
  · intro r c
    have ht : r.val + c.val * n_rows < (List.range (y.length + idx_nan.length)).length := by
      rw [List.length_range]
      exact hpos r c
    have := hspec (r.val + c.val * n_rows) ht
    rw [Matrix.of_apply, this, List.get_range, List.take_range]
    rw [Nat.min_eq_left (le_of_lt (hpos r c))]
    simp only [Nat.zero_add]
    rfl
  · intro r c hnotin
    have hlt := countFilled_lt idx_nan _ _ (hpos r c) hnotin
    have hend : countFilled idx_nan (y.length + idx_nan.length) = y.length := hfl
    omega

unseal Rat.add Rat.mul Rat.sub Rat.inv in
/-- C10 witness: the `recover_map` characterization applied to the
concrete data `y = [10, 20, 30]`, `idx_nan = [1]`, `n_rows = n_cols = 2`,
hypotheses discharged by computation. -/
theorem C10_recover_map_witness :
    (([1] : List ℕ).Nodup ∧
      (∀ x ∈ ([1] : List ℕ), x < ([10, 20, 30] : List ℚ).length + ([1] : List ℕ).length) ∧
      2 * 2 = ([10, 20, 30] : List ℚ).length + ([1] : List ℕ).length) ∧
    (∃ M, recover_map [10, 20, 30] [1] 2 2 = some M ∧
      (∀ (r : Fin 2) (c : Fin 2),
        M r c = if (r.val + c.val * 2) ∈ ([1] : List ℕ) then none
          else ([10, 20, 30] : List ℚ).get? (countFilled [1] (r.val + c.val * 2))) ∧
      (∀ t1 t2 : ℕ, t1 < t2 → t1 ∉ ([1] : List ℕ) →
        countFilled [1] t1 < countFilled [1] t2) ∧
      (∀ (r : Fin 2) (c : Fin 2), (r.val + c.val * 2) ∉ ([1] : List ℕ) →
        countFilled [1] (r.val + c.val * 2) < ([10, 20, 30] : List ℚ).length)) :=
  ⟨⟨by decide, by decide, by decide⟩,
    C10_recover_map [10, 20, 30] [1] 2 2 (by decide) (by decide) (by decide)⟩
